import Mathlib

/-
Verification of the documentation-mirroring utility `scripts/linear_sync_docs.py`.

The script is embedded shallowly: Python strings become `List Char`, line-oriented
regex scanning becomes explicit recursive scanners, the GraphQL transport becomes an
explicit outcome datatype fed to the pure decision logic, and the orchestrator
`sync_docs` becomes a pure function from its inputs (the path-to-issue mapping built
by `build_mapping`, the filesystem contents, the discovered document list, the CLI
flags, and the per-call transport outcomes) to a run trace recording the exit
behaviour, every update call issued, and every progress line printed.
-/

/-- Python strings are modelled as lists of characters. -/
abbrev Str := List Char

/-- Shorthand turning a Lean string literal into the `List Char` model. -/
def str (s : String) : Str := s.toList

/-- Whitespace as recognised by Python's `str.strip` family and the `\s` regex
class on `str` patterns: the exact character set for which `str.isspace()` holds
(transcribed from CPython), namely U+0009..U+000D, U+001C..U+0020, NEL, NBSP, the
Ogham space mark, U+2000..U+200A, the line and paragraph separators, the narrow
no-break space, the medium mathematical space and the ideographic space. -/
def isSpace (c : Char) : Bool :=
  (9 ≤ c.toNat && c.toNat ≤ 13) || (28 ≤ c.toNat && c.toNat ≤ 32) ||
    c.toNat = 133 || c.toNat = 160 || c.toNat = 5760 ||
    (8192 ≤ c.toNat && c.toNat ≤ 8202) || c.toNat = 8232 || c.toNat = 8233 ||
    c.toNat = 8239 || c.toNat = 8287 || c.toNat = 12288

/-- Decimal digits as matched by Python's `\d` on `str` patterns: exactly the
characters of Unicode general category Nd (the range table is transcribed from
CPython's character database). -/
def pyDigit (c : Char) : Bool :=
  (48 ≤ c.toNat && c.toNat ≤ 57) || (1632 ≤ c.toNat && c.toNat ≤ 1641) ||
    (1776 ≤ c.toNat && c.toNat ≤ 1785) || (1984 ≤ c.toNat && c.toNat ≤ 1993) ||
    (2406 ≤ c.toNat && c.toNat ≤ 2415) || (2534 ≤ c.toNat && c.toNat ≤ 2543) ||
    (2662 ≤ c.toNat && c.toNat ≤ 2671) || (2790 ≤ c.toNat && c.toNat ≤ 2799) ||
    (2918 ≤ c.toNat && c.toNat ≤ 2927) || (3046 ≤ c.toNat && c.toNat ≤ 3055) ||
    (3174 ≤ c.toNat && c.toNat ≤ 3183) || (3302 ≤ c.toNat && c.toNat ≤ 3311) ||
    (3430 ≤ c.toNat && c.toNat ≤ 3439) || (3558 ≤ c.toNat && c.toNat ≤ 3567) ||
    (3664 ≤ c.toNat && c.toNat ≤ 3673) || (3792 ≤ c.toNat && c.toNat ≤ 3801) ||
    (3872 ≤ c.toNat && c.toNat ≤ 3881) || (4160 ≤ c.toNat && c.toNat ≤ 4169) ||
    (4240 ≤ c.toNat && c.toNat ≤ 4249) || (6112 ≤ c.toNat && c.toNat ≤ 6121) ||
    (6160 ≤ c.toNat && c.toNat ≤ 6169) || (6470 ≤ c.toNat && c.toNat ≤ 6479) ||
    (6608 ≤ c.toNat && c.toNat ≤ 6617) || (6784 ≤ c.toNat && c.toNat ≤ 6793) ||
    (6800 ≤ c.toNat && c.toNat ≤ 6809) || (6992 ≤ c.toNat && c.toNat ≤ 7001) ||
    (7088 ≤ c.toNat && c.toNat ≤ 7097) || (7232 ≤ c.toNat && c.toNat ≤ 7241) ||
    (7248 ≤ c.toNat && c.toNat ≤ 7257) || (42528 ≤ c.toNat && c.toNat ≤ 42537) ||
    (43216 ≤ c.toNat && c.toNat ≤ 43225) || (43264 ≤ c.toNat && c.toNat ≤ 43273) ||
    (43472 ≤ c.toNat && c.toNat ≤ 43481) || (43504 ≤ c.toNat && c.toNat ≤ 43513) ||
    (43600 ≤ c.toNat && c.toNat ≤ 43609) || (44016 ≤ c.toNat && c.toNat ≤ 44025) ||
    (65296 ≤ c.toNat && c.toNat ≤ 65305) || (66720 ≤ c.toNat && c.toNat ≤ 66729) ||
    (68912 ≤ c.toNat && c.toNat ≤ 68921) || (69734 ≤ c.toNat && c.toNat ≤ 69743) ||
    (69872 ≤ c.toNat && c.toNat ≤ 69881) || (69942 ≤ c.toNat && c.toNat ≤ 69951) ||
    (70096 ≤ c.toNat && c.toNat ≤ 70105) || (70384 ≤ c.toNat && c.toNat ≤ 70393) ||
    (70736 ≤ c.toNat && c.toNat ≤ 70745) || (70864 ≤ c.toNat && c.toNat ≤ 70873) ||
    (71248 ≤ c.toNat && c.toNat ≤ 71257) || (71360 ≤ c.toNat && c.toNat ≤ 71369) ||
    (71472 ≤ c.toNat && c.toNat ≤ 71481) || (71904 ≤ c.toNat && c.toNat ≤ 71913) ||
    (72016 ≤ c.toNat && c.toNat ≤ 72025) || (72784 ≤ c.toNat && c.toNat ≤ 72793) ||
    (73040 ≤ c.toNat && c.toNat ≤ 73049) || (73120 ≤ c.toNat && c.toNat ≤ 73129) ||
    (92768 ≤ c.toNat && c.toNat ≤ 92777) || (92864 ≤ c.toNat && c.toNat ≤ 92873) ||
    (93008 ≤ c.toNat && c.toNat ≤ 93017) || (120782 ≤ c.toNat && c.toNat ≤ 120831) ||
    (123200 ≤ c.toNat && c.toNat ≤ 123209) || (123632 ≤ c.toNat && c.toNat ≤ 123641) ||
    (125264 ≤ c.toNat && c.toNat ≤ 125273) || (130032 ≤ c.toNat && c.toNat ≤ 130041)

/-- Python semantics of `text.split("\n")`, so the empty string yields one empty line
and a trailing newline yields a trailing empty line. -/
def splitLines : Str → List Str
  | [] => [[]]
  | c :: cs =>
    if c = '\n' then [] :: splitLines cs
    else
      match splitLines cs with
      | [] => [[c]]
      | l :: ls => (c :: l) :: ls

/-- Python's `"\n".join(lines)`. -/
def joinLines : List Str → Str
  | [] => []
  | [l] => l
  | l :: l2 :: ls => l ++ '\n' :: joinLines (l2 :: ls)

/-- The stripped-line test `stripped.startswith("```") or stripped.startswith("~~~")`
that toggles the fenced-code state in `transform_markdown`. -/
def fenceLine (line : Str) : Bool :=
  (str "```").isPrefixOf (line.dropWhile isSpace) ||
    (str "~~~").isPrefixOf (line.dropWhile isSpace)

/-- The already-a-checkbox test
`stripped.startswith("- [ ]") or stripped.startswith("- [x]") or stripped.startswith("- [X]")`. -/
def cbStart (s : Str) : Bool :=
  (str "- [ ]").isPrefixOf s || (str "- [x]").isPrefixOf s || (str "- [X]").isPrefixOf s

/-- Fuel-driven core of the blockquote-prefix capture.  The regex
`^(\s*(?:>\s*)*)(.*)$` always matches, greedily: group 1 is a maximal whitespace run
followed by maximal repetitions of a `>` and a further whitespace run; group 2 is the
remainder of the line.  The fuel is the length of the line, which bounds the
recursion depth since every step removes at least the matched `>`. -/
def bqAux : Nat → Str → Str × Str
  | 0, l => ([], l)
  | fuel + 1, l =>
    match l.dropWhile isSpace with
    | c :: r2 =>
      if c = '>' then
        let pr := bqAux fuel r2
        (l.takeWhile isSpace ++ '>' :: pr.1, pr.2)
      else (l.takeWhile isSpace, c :: r2)
    | [] => (l.takeWhile isSpace, [])

/-- The match of `re.match(r"^(\s*(?:>\s*)*)(.*)$", line)` split into (group 1, group 2). -/
def bqSplit (l : Str) : Str × Str := bqAux l.length l

/-- The ordered-list matcher `re.match(r"^(\d+)\.\s+(.*)$", rest)`, returning
group 2 (the item content after the digits, the period and the whitespace run)
when the match succeeds. -/
def orderedSplit (rest : Str) : Option Str :=
  if (rest.takeWhile pyDigit).isEmpty then none
  else
    match rest.dropWhile pyDigit with
    | '.' :: r2 =>
      if (r2.takeWhile isSpace).isEmpty then none
      else some (r2.dropWhile isSpace)
    | _ => none

/-- The body of `transform_markdown`'s per-line work for a line that is outside a
fenced region and is not itself a fence toggle: pass checkbox lines through, split
off the blockquote prefix, rewrite an unordered (`- `, `* `, `+ `) or ordered
(`\d+\. `) marker into `- [ ] `, and otherwise return the line unchanged. -/
def procLine (line : Str) : Str :=
  if cbStart (line.dropWhile isSpace) then line
  else if (str "- ").isPrefixOf (bqSplit line).2 then
    (bqSplit line).1 ++ str "- [ ] " ++ (bqSplit line).2.drop 2
  else if (str "* ").isPrefixOf (bqSplit line).2 then
    (bqSplit line).1 ++ str "- [ ] " ++ (bqSplit line).2.drop 2
  else if (str "+ ").isPrefixOf (bqSplit line).2 then
    (bqSplit line).1 ++ str "- [ ] " ++ (bqSplit line).2.drop 2
  else
    match orderedSplit (bqSplit line).2 with
    | some content => (bqSplit line).1 ++ str "- [ ] " ++ content
    | none => line

/-- The line loop of `transform_markdown`, carrying the `in_code` boolean. -/
def transformLines (inCode : Bool) : List Str → List Str
  | [] => []
  | line :: rest =>
    if fenceLine line then line :: transformLines (!inCode) rest
    else if inCode then line :: transformLines inCode rest
    else procLine line :: transformLines inCode rest

/-- The transformer `transform_markdown(text)`: split on newlines, rewrite list markers outside
fenced regions, join with newlines. -/
def transform_markdown (text : Str) : Str :=
  joinLines (transformLines false (splitLines text))

/-- The opening tag of the metadata fence, `"```mirror-meta"`. -/
def metaOpen : Str := str "```mirror-meta"

/-- A closing triple-backtick fence. -/
def fence3 : Str := str "```"

/-- The lazy group of `MIRROR_META_RE`: the characters strictly before the first
occurrence of a closing triple backtick, or `none` when no closing fence exists. -/
def findClose : Str → Option Str
  | [] => none
  | c :: cs =>
    if fence3.isPrefixOf (c :: cs) then some []
    else (findClose cs).map (fun g => c :: g)

/-- Attempt the part of `MIRROR_META_RE` after the opening tag: `\s+` must consume a
non-empty maximal whitespace run, then the lazy group runs to the first closing
fence. -/
def tryMeta (r : Str) : Option Str :=
  if (r.takeWhile isSpace).isEmpty then none
  else findClose (r.dropWhile isSpace)

/-- The search `MIRROR_META_RE.search`: scan left to right for an occurrence of the opening tag
from which the rest of the pattern also matches, returning group 1. -/
def metaSearch : Str → Option Str
  | [] => none
  | c :: cs =>
    if metaOpen.isPrefixOf (c :: cs) then
      match tryMeta ((c :: cs).drop metaOpen.length) with
      | some g => some g
      | none => metaSearch cs
    else metaSearch cs

/-- The extractor `extract_meta_block(description)`: the first matched block, re-wrapped as
`f"```mirror-meta\n{match.group(1)}```"`. -/
def extract_meta_block (description : Str) : Option Str :=
  (metaSearch description).map (fun g => metaOpen ++ '\n' :: g ++ fence3)

/-- The reassembly `build_description(meta_block, content)`: the transformed content alone when the
block is empty (Python falsiness), else the block, a blank line, and the content. -/
def build_description (meta_block content : Str) : Str :=
  if meta_block.isEmpty then content
  else meta_block ++ '\n' :: '\n' :: content

/-- Whether `pat` occurs as a contiguous run of characters inside `s`. -/
def occursIn (pat : Str) : Str → Bool
  | [] => pat.isEmpty
  | c :: cs => pat.isPrefixOf (c :: cs) || occursIn pat cs

/-- The outcome of the single HTTP POST inside `graphql_request`: either
`urllib.error.HTTPError` with a status code and a body, or a parsed JSON response
in which `errors` is the value of the `"errors"` key when that key is present and
`dat` the value of the `"data"` key when present. -/
inductive Transport (α : Type) where
  | httpError (code : Nat) (body : Str)
  | response (errors : Option (List Str)) (dat : Option α)
deriving DecidableEq

/-- What `graphql_request` does with a transport outcome: re-raise the HTTP error
as `RuntimeError(f"Linear API HTTP {exc.code}: {body}")`, raise
`RuntimeError(f"Linear API error: {data['errors']}")` whenever the `errors` key is
present, raise `KeyError` when the `data` key is missing, or return the data. -/
inductive GqlResult (α : Type) where
  | fatalHttp (code : Nat) (body : Str)
  | fatalApi (errs : List Str)
  | missingData
  | ok (d : α)
deriving DecidableEq

/-- The decision logic of `graphql_request` over the transport outcome. -/
def graphql_request {α : Type} : Transport α → GqlResult α
  | .httpError code body => .fatalHttp code body
  | .response (some errs) _ => .fatalApi errs
  | .response none (some d) => .ok d
  | .response none none => .missingData

/-- Whether the call returned normally. -/
def gqlOk {α : Type} : GqlResult α → Bool
  | .ok _ => true
  | _ => false

/-- Whether the call raised one of the two `RuntimeError` failures. -/
def gqlFatal {α : Type} : GqlResult α → Bool
  | .fatalHttp _ _ => true
  | .fatalApi _ => true
  | _ => false

/-- Whether the transport reported a non-success HTTP status. -/
def transportHttpErr {α : Type} : Transport α → Bool
  | .httpError _ _ => true
  | _ => false

/-- Whether the parsed response contains the `errors` key (empty list included). -/
def transportHasErrors {α : Type} : Transport α → Bool
  | .response (some _) _ => true
  | _ => false

/-- Python string comparison: lexicographic on code points, shorter prefixes first. -/
def strLE : Str → Str → Bool
  | [], _ => true
  | _ :: _, [] => false
  | a :: as, b :: bs =>
    if a < b then true
    else if b < a then false
    else strLE as bs

/-- Insert into a `strLE`-sorted list, keeping it sorted. -/
def insertSorted (x : Str) : List Str → List Str
  | [] => [x]
  | y :: ys => if strLE x y then x :: y :: ys else y :: insertSorted x ys

/-- Python's `sorted(paths)`.  Distinct sorted permutations of a list can differ only in the
relative order of equal elements, and equal strings are identical, so every correct
sort — including Python's stable one — produces this list. -/
def sortStr : List Str → List Str
  | [] => []
  | x :: xs => insertSorted x (sortStr xs)

/-- Python's `lst[:n]` for an integer `n`: a non-negative bound keeps the first `n` elements,
a negative bound drops `-n` elements from the end. -/
def pySliceTo {α : Type} (n : Int) (l : List α) : List α :=
  if 0 ≤ n then l.take n.toNat else l.take (l.length - (-n).toNat)

/-- The `--limit` step `if limit: repo_docs = repo_docs[:limit]`: `None` and `0` are
both falsy, so truncation happens only for a non-zero limit. -/
def limitDocs (limit : Option Int) (docs : List Str) : List Str :=
  match limit with
  | none => docs
  | some n => if n = 0 then docs else pySliceTo n docs

/-- The paths for which `path not in mapping`, computed over the sorted document
list exactly as in `sync_docs`. -/
def missingOf (mapping : Str → Option (Str × Str)) (docsFound : List Str) : List Str :=
  (sortStr docsFound).filter (fun p => (mapping p).isNone)

/-- The update-record loop of `sync_docs`: for each document, look up its
`(issue_id, meta_block)`, read and transform its text, and record
`(issue_id, build_description(meta_block, transformed), path)`.  After the
missing-path gate every lookup succeeds, so the `filterMap` skips nothing. -/
def preparedOf (mapping : Str → Option (Str × Str)) (files : Str → Str)
    (docs : List Str) : List (Str × Str × Str) :=
  docs.filterMap (fun p =>
    (mapping p).map (fun im => (im.1, build_description im.2 (transform_markdown (files p)), p)))

/-- The prepared update records of a run: sorted documents, the limit step, then the
record loop. -/
def updatesOf (mapping : Str → Option (Str × Str)) (files : Str → Str)
    (docsFound : List Str) (limit : Option Int) : List (Str × Str × Str) :=
  preparedOf mapping files (limitDocs limit (sortStr docsFound))

/-- The `(issue_id, description)` payloads of the update calls for a record list. -/
def callsOf (us : List (Str × Str × Str)) : List (Str × Str) :=
  us.map (fun u => (u.1, u.2.1))

/-- The `f"Updated {path}"` progress lines for a record list. -/
def updatedLines (us : List (Str × Str × Str)) : List Str :=
  us.map (fun u => str "Updated " ++ u.2.2)

/-- The paths of a record list. -/
def pathsOf (us : List (Str × Str × Str)) : List Str :=
  us.map (fun u => u.2.2)

/-- The line `f"Prepared {len(updates)} updates."`. -/
def preparedLine (n : Nat) : Str :=
  str "Prepared " ++ Nat.toDigits 10 n ++ str " updates."

/-- The line `f"- {path} -> {issue_id}"`, one preview line. -/
def previewLine (u : Str × Str × Str) : Str :=
  str "- " ++ u.2.2 ++ str " -> " ++ u.1

/-- How a run ends: `sys.exit` with a code, or an uncaught exception from a failed
update call. -/
inductive RunOutcome where
  | exited (code : Nat)
  | raised
deriving DecidableEq

/-- Observable behaviour of one `sync_docs` run: how it ended, the update calls
issued to the remote service in order, and the lines printed. -/
structure RunTrace where
  outcome : RunOutcome
  updateCalls : List (Str × Str)
  printed : List Str
deriving DecidableEq

/-- The apply loop: issue one `issueUpdate` call per record, printing
`f"Updated {path}"` after each success; the first call whose transport outcome makes
`graphql_request` raise stops the loop.  `net k` is the transport outcome of the
`k`-th write call.  Returns the calls issued, the lines printed, and whether every
call succeeded. -/
def runUpdates (net : Nat → Transport Unit) : Nat → List (Str × Str × Str) →
    List (Str × Str) × List Str × Bool
  | _, [] => ([], [], true)
  | k, u :: rest =>
    match graphql_request (net k) with
    | .ok _ =>
      let r := runUpdates net (k + 1) rest
      ((u.1, u.2.1) :: r.1, (str "Updated " ++ u.2.2) :: r.2.1, r.2.2)
    | _ => ([(u.1, u.2.1)], [], false)

/-- The trace of the missing-mapping gate: report every missing path, abort with
exit code 1, no update calls. -/
def gateTrace (missing : List Str) : RunTrace :=
  ⟨.exited 1, [],
    str "Missing Linear issues for paths:" :: missing.map (fun p => str "- " ++ p) ++
      [str "Aborting due to missing mappings."]⟩

/-- The trace of a preview (`--apply` absent) run after the gate: the prepared
count, at most the first five records, the dry-run notice, exit code 0, no calls. -/
def previewTrace (updates : List (Str × Str × Str)) : RunTrace :=
  ⟨.exited 0, [],
    preparedLine updates.length :: (updates.take 5).map previewLine ++
      [str "Dry run only. Use --apply to update issues."]⟩

/-- The trace of an apply run after the gate. -/
def applyTrace (updates : List (Str × Str × Str)) (net : Nat → Transport Unit) : RunTrace :=
  ⟨if (runUpdates net 0 updates).2.2 then .exited 0 else .raised,
    (runUpdates net 0 updates).1,
    preparedLine updates.length :: (runUpdates net 0 updates).2.1⟩

/-- The orchestrator `sync_docs(api_key, apply, limit)` as a function of its run inputs: `mapping` is
the dictionary returned by `build_mapping` (a finite map from source path to
`(issue_id, meta_block)`), `files` is `Path(path).read_text()`, `docsFound` the
paths produced by `Path("docs").rglob("*.md")` before sorting, and `net` the
transport outcomes of the successive write calls. -/
def sync_docs (mapping : Str → Option (Str × Str)) (files : Str → Str)
    (docsFound : List Str) (apply : Bool) (limit : Option Int)
    (net : Nat → Transport Unit) : RunTrace :=
  if (missingOf mapping docsFound).isEmpty then
    if apply then applyTrace (updatesOf mapping files docsFound limit) net
    else previewTrace (updatesOf mapping files docsFound limit)
  else gateTrace (missingOf mapping docsFound)

/-- Count of fence-toggle lines, for stating the fenced-region claims. -/
def fenceCount (ls : List Str) : Nat := ls.countP (fun l => fenceLine l)

/-- A line whose captured blockquote group contains no `>`, i.e. a line whose list
marker (if any) is not behind a blockquote marker. -/
def bqFree (l : Str) : Bool := (bqSplit l).1.all (fun c => !(c = '>'))

theorem isPrefixOf_append_self : ∀ (l t : List Char), l.isPrefixOf (l ++ t) = true := by
  intro l t
  induction l with
  | nil => simp [List.isPrefixOf]
  | cons a as ih => simp [List.isPrefixOf, ih]

theorem isPrefixOf_ext : ∀ (p x y z : List Char), p.length ≤ x.length →
    p.isPrefixOf (x ++ y) = p.isPrefixOf (x ++ z) := by
  intro p
  induction p with
  | nil => intro x y z h; simp [List.isPrefixOf]
  | cons a as ih =>
    intro x y z h
    cases x with
    | nil => simp at h
    | cons b bs =>
      simp only [List.cons_append, List.isPrefixOf]
      exact congrArg (fun t => a == b && t) (ih bs y z (by simpa using h))

theorem dropWhile_head_false {p : Char → Bool} :
    ∀ (l : Str) {c cs}, l.dropWhile p = c :: cs → p c = false := by
  intro l
  induction l with
  | nil => intro c cs h; simp [List.dropWhile] at h
  | cons a as ih =>
    intro c cs h
    rw [List.dropWhile_cons] at h
    by_cases hp : p a
    · simp only [hp, if_true] at h
      exact ih h
    · simp only [hp, if_false] at h
      obtain ⟨h1, h2⟩ := List.cons.injEq a as c cs ▸ h
      rw [← h1]
      simpa using hp

theorem dropWhile_append_all {p : Char → Bool} : ∀ (w x : Str), (∀ a ∈ w, p a = true) →
    (w ++ x).dropWhile p = x.dropWhile p := by
  intro w x h
  induction w with
  | nil => simp
  | cons a as ih =>
    have ha : p a = true := h a (List.mem_cons_self a as)
    simp only [List.cons_append, List.dropWhile_cons, ha, if_true]
    exact ih (fun b hb => h b (List.mem_cons_of_mem a hb))

theorem splitLines_ne_nil : ∀ t, splitLines t ≠ [] := by
  intro t
  induction t with
  | nil => simp [splitLines]
  | cons c cs ih =>
    simp only [splitLines]
    split
    · simp
    · cases h : splitLines cs with
      | nil => simp
      | cons l ls => simp

theorem splitLines_no_nl : ∀ t l, l ∈ splitLines t → '\n' ∉ l := by
  intro t
  induction t with
  | nil =>
    intro l hl
    simp [splitLines] at hl
    simp [hl]
  | cons c cs ih =>
    intro l hl
    simp only [splitLines] at hl
    by_cases hc : c = '\n'
    · simp only [hc, if_true] at hl
      rcases List.mem_cons.mp hl with h | h
      · simp [h]
      · exact ih l h
    · simp only [hc, if_false] at hl
      cases h : splitLines cs with
      | nil => exact absurd h (splitLines_ne_nil cs)
      | cons l0 ls =>
        rw [h] at hl
        rcases List.mem_cons.mp hl with h1 | h1
        · subst h1
          intro hmem
          rcases List.mem_cons.mp hmem with h2 | h2
          · exact hc h2.symm
          · exact ih l0 (h ▸ List.mem_cons_self l0 ls) h2
        · exact ih l (h ▸ List.mem_cons_of_mem l0 h1)

theorem splitLines_append : ∀ (l r : Str), '\n' ∉ l →
    splitLines (l ++ '\n' :: r) = l :: splitLines r := by
  intro l
  induction l with
  | nil => intro r _; simp [splitLines]
  | cons a as ih =>
    intro r hnl
    have ha : ¬ (a = '\n') := fun h => hnl (h ▸ List.mem_cons_self a as)
    simp only [List.cons_append, splitLines, ha, if_false]
    rw [show splitLines (as.append ('\n' :: r)) = as :: splitLines r from
      ih r (fun h => hnl (List.mem_cons_of_mem a h))]

theorem splitLines_of_no_nl : ∀ (l : Str), '\n' ∉ l → splitLines l = [l] := by
  intro l
  induction l with
  | nil => intro _; simp [splitLines]
  | cons a as ih =>
    intro hnl
    have ha : ¬ (a = '\n') := fun h => hnl (h ▸ List.mem_cons_self a as)
    simp only [splitLines, ha, if_false]
    rw [ih (fun h => hnl (List.mem_cons_of_mem a h))]

theorem split_join : ∀ ls, ls ≠ [] → (∀ l ∈ ls, '\n' ∉ l) →
    splitLines (joinLines ls) = ls := by
  intro ls
  induction ls with
  | nil => intro h _; exact absurd rfl h
  | cons l tl ih =>
    intro _ hnl
    cases tl with
    | nil =>
      show splitLines (joinLines [l]) = [l]
      simp only [joinLines]
      exact splitLines_of_no_nl l (hnl l (List.mem_cons_self l []))
    | cons l2 tl2 =>
      show splitLines (l ++ '\n' :: joinLines (l2 :: tl2)) = l :: l2 :: tl2
      rw [splitLines_append l _ (hnl l (List.mem_cons_self l _))]
      rw [ih (by simp) (fun x hx => hnl x (List.mem_cons_of_mem l hx))]

theorem bqAux_mem : ∀ (fuel : Nat) (l : Str),
    (∀ a ∈ (bqAux fuel l).1, a ∈ l ∨ a = '>') ∧ (∀ a ∈ (bqAux fuel l).2, a ∈ l) := by
  intro fuel
  induction fuel with
  | zero => intro l; simp [bqAux]
  | succ n ih =>
    intro l
    simp only [bqAux]
    cases h : l.dropWhile isSpace with
    | nil =>
      refine ⟨fun a ha => ?_, fun a ha => ?_⟩
      · exact Or.inl ((List.takeWhile_sublist isSpace).subset ha)
      · simp at ha
    | cons c cs =>
      by_cases hc : c = '>'
      · subst hc
        simp only [if_pos rfl]
        constructor
        · intro a ha
          rcases List.mem_append.mp ha with h1 | h1
          · exact Or.inl ((List.takeWhile_sublist isSpace).subset h1)
          · rcases List.mem_cons.mp h1 with h2 | h2
            · exact Or.inr h2
            · rcases (ih cs).1 a h2 with h3 | h3
              · have h4 : a ∈ l.dropWhile isSpace := h ▸ List.mem_cons_of_mem _ h3
                exact Or.inl ((List.dropWhile_sublist isSpace).subset h4)
              · exact Or.inr h3
        · intro a ha
          have h3 := (ih cs).2 a ha
          have h4 : a ∈ l.dropWhile isSpace := h ▸ List.mem_cons_of_mem _ h3
          exact (List.dropWhile_sublist isSpace).subset h4
      · simp only [if_neg hc]
        refine ⟨fun a ha => Or.inl ((List.takeWhile_sublist isSpace).subset ha),
          fun a ha => (List.dropWhile_sublist isSpace).subset (h ▸ ha)⟩

theorem bqFree_no_gt : ∀ (l : Str), bqFree l = true → '>' ∉ (bqSplit l).1 := by
  intro l hb hmem
  have := (List.all_eq_true.mp hb) '>' hmem
  simp at this

theorem bqAux_eq_nil : ∀ (n : Nat) (l : Str), l.dropWhile isSpace = [] →
    bqAux (n + 1) l = (l.takeWhile isSpace, []) := by
  intro n l h
  simp only [bqAux, h]

theorem bqAux_eq_cons : ∀ (n : Nat) (l : Str) (c : Char) (cs : Str),
    l.dropWhile isSpace = c :: cs →
    bqAux (n + 1) l = if c = '>'
      then (l.takeWhile isSpace ++ '>' :: (bqAux n cs).1, (bqAux n cs).2)
      else (l.takeWhile isSpace, c :: cs) := by
  intro n l c cs h
  simp only [bqAux, h]

theorem bqSplit_of_bqFree : ∀ (l : Str), bqFree l = true →
    bqSplit l = (l.takeWhile isSpace, l.dropWhile isSpace) := by
  intro l hb
  have hng : '>' ∉ (bqSplit l).1 := bqFree_no_gt l hb
  cases l with
  | nil => rfl
  | cons a as =>
    cases h : (a :: as).dropWhile isSpace with
    | nil =>
      have heq : bqSplit (a :: as) = ((a :: as).takeWhile isSpace, []) :=
        bqAux_eq_nil as.length (a :: as) h
      rw [heq]
    | cons c cs =>
      have heq : bqSplit (a :: as) = if c = '>'
          then ((a :: as).takeWhile isSpace ++ '>' :: (bqAux as.length cs).1,
            (bqAux as.length cs).2)
          else ((a :: as).takeWhile isSpace, c :: cs) :=
        bqAux_eq_cons as.length (a :: as) c cs h
      rw [heq] at hng ⊢
      by_cases hc : c = '>'
      · rw [if_pos hc] at hng
        subst hc
        exact absurd (List.mem_append_right _ (List.mem_cons_self _ _)) hng
      · rw [if_neg hc]

theorem orderedSplit_mem : ∀ (rest c : Str), orderedSplit rest = some c → ∀ a ∈ c, a ∈ rest := by
  intro rest c h a ha
  unfold orderedSplit at h
  split at h
  · simp at h
  · split at h
    · next r2 heq =>
      split at h
      · simp at h
      · have hc : c = r2.dropWhile isSpace := (Option.some.injEq _ _ ▸ h).symm
        subst hc
        have h1 : a ∈ r2 := (List.dropWhile_sublist isSpace).subset ha
        have h2 : a ∈ rest.dropWhile pyDigit := heq ▸ List.mem_cons_of_mem _ h1
        exact (List.dropWhile_sublist pyDigit).subset h2
    · simp at h

theorem procLine_of_cb : ∀ (l : Str), cbStart (l.dropWhile isSpace) = true → procLine l = l := by
  intro l h
  unfold procLine
  rw [if_pos h]

theorem procLine_no_nl : ∀ (l : Str), '\n' ∉ l → '\n' ∉ procLine l := by
  intro l hnl
  have hpre : ∀ a ∈ (bqSplit l).1, a ∈ l ∨ a = '>' := (bqAux_mem l.length l).1
  have hrest : ∀ a ∈ (bqSplit l).2, a ∈ l := (bqAux_mem l.length l).2
  have hconv : ∀ (c : Str), (∀ a ∈ c, a ∈ l) →
      '\n' ∉ (bqSplit l).1 ++ str "- [ ] " ++ c := by
    intro c hc hmem
    rcases List.mem_append.mp hmem with h1 | h1
    · rcases List.mem_append.mp h1 with h2 | h2
      · rcases hpre _ h2 with h3 | h3
        · exact hnl h3
        · exact absurd h3 (by decide)
      · exact absurd h2 (by decide)
    · exact hnl (hc _ h1)
  unfold procLine
  split
  · exact hnl
  · split
    · exact hconv _ (fun a ha => hrest _ ((List.drop_sublist 2 _).subset ha))
    · split
      · exact hconv _ (fun a ha => hrest _ ((List.drop_sublist 2 _).subset ha))
      · split
        · exact hconv _ (fun a ha => hrest _ ((List.drop_sublist 2 _).subset ha))
        · split
          · next content heq =>
            exact hconv _ (fun a ha => hrest _ (orderedSplit_mem _ _ heq a ha))
          · exact hnl

theorem procLine_shape : ∀ (l : Str), bqFree l = true → procLine l = l ∨
    ∃ c, procLine l = l.takeWhile isSpace ++ str "- [ ] " ++ c := by
  intro l hb
  unfold procLine
  rw [bqSplit_of_bqFree l hb]
  split
  · exact Or.inl rfl
  · split
    · exact Or.inr ⟨_, rfl⟩
    · split
      · exact Or.inr ⟨_, rfl⟩
      · split
        · exact Or.inr ⟨_, rfl⟩
        · split
          · exact Or.inr ⟨_, rfl⟩
          · exact Or.inl rfl

theorem cbStart_converted : ∀ (w c : Str), (∀ a ∈ w, isSpace a = true) →
    cbStart ((w ++ str "- [ ] " ++ c).dropWhile isSpace) = true := by
  intro w c hw
  rw [List.append_assoc, dropWhile_append_all w _ hw,
    show str "- [ ] " ++ c = '-' :: (str " [ ] " ++ c) from rfl, List.dropWhile_cons]
  rw [show isSpace '-' = false from by decide]
  simp only [Bool.false_eq_true, if_false]
  have h4 : (str "- [ ]").isPrefixOf ('-' :: (str " [ ] " ++ c)) = true := by
    rw [show ('-' :: (str " [ ] " ++ c) : Str) = str "- [ ]" ++ (' ' :: c) from rfl]
    exact isPrefixOf_append_self _ _
  simp [cbStart, h4]

theorem procLine_fixed : ∀ (w c : Str), (∀ a ∈ w, isSpace a = true) →
    procLine (w ++ str "- [ ] " ++ c) = w ++ str "- [ ] " ++ c := by
  intro w c hw
  exact procLine_of_cb _ (cbStart_converted w c hw)

theorem isPrefixOf_head : ∀ (p : Str) (a : Char) (x : Str), p.isPrefixOf (a :: x) = true →
    p = [] ∨ p.headD ' ' = a := by
  intro p a x h
  cases p with
  | nil => exact Or.inl rfl
  | cons b bs =>
    simp only [List.isPrefixOf, Bool.and_eq_true, beq_iff_eq] at h
    refine Or.inr ?_
    simp only [List.headD_cons]
    exact h.1

theorem fence_converted : ∀ (w c : Str), (∀ a ∈ w, isSpace a = true) →
    fenceLine (w ++ str "- [ ] " ++ c) = false := by
  intro w c hw
  have h1 : (w ++ str "- [ ] " ++ c).dropWhile isSpace = '-' :: (str " [ ] " ++ c) := by
    rw [List.append_assoc, dropWhile_append_all w _ hw,
      show str "- [ ] " ++ c = '-' :: (str " [ ] " ++ c) from rfl, List.dropWhile_cons]
    rw [show isSpace '-' = false from by decide]
    simp only [Bool.false_eq_true, if_false]
  unfold fenceLine
  rw [h1]
  cases h2 : (str "```").isPrefixOf ('-' :: (str " [ ] " ++ c)) with
  | true =>
    rcases isPrefixOf_head _ _ _ h2 with h3 | h3
    · exact absurd h3 (by decide)
    · exact absurd h3 (by decide)
  | false =>
    cases h4 : (str "~~~").isPrefixOf ('-' :: (str " [ ] " ++ c)) with
    | true =>
      rcases isPrefixOf_head _ _ _ h4 with h3 | h3
      · exact absurd h3 (by decide)
      · exact absurd h3 (by decide)
    | false => rfl

theorem procLine_fence : ∀ (l : Str), bqFree l = true → fenceLine l = false →
    fenceLine (procLine l) = false := by
  intro l hb hf
  rcases procLine_shape l hb with h | ⟨c, h⟩
  · rw [h]
    exact hf
  · rw [h]
    exact fence_converted _ _ (fun a ha => List.mem_takeWhile_imp ha)

theorem procLine_idem : ∀ (l : Str), bqFree l = true →
    procLine (procLine l) = procLine l := by
  intro l hb
  rcases procLine_shape l hb with h | ⟨c, h⟩
  · rw [h]
    exact h
  · rw [h]
    exact procLine_fixed _ _ (fun a ha => List.mem_takeWhile_imp ha)

theorem transformLines_cons : ∀ (s : Bool) (x : Str) (xs : List Str),
    transformLines s (x :: xs) =
      if fenceLine x then x :: transformLines (!s) xs
      else if s then x :: transformLines s xs
      else procLine x :: transformLines s xs := by
  intro s x xs
  rfl

theorem transformLines_length : ∀ (ls : List Str) (s : Bool),
    (transformLines s ls).length = ls.length := by
  intro ls
  induction ls with
  | nil => intro s; rfl
  | cons x tl ih =>
    intro s
    rw [transformLines_cons]
    by_cases hf : fenceLine x
    · rw [if_pos hf]
      simp [ih]
    · rw [if_neg hf]
      cases s
      · rw [if_neg (by decide)]
        simp [ih]
      · rw [if_pos rfl]
        simp [ih]

theorem transformLines_no_nl : ∀ (ls : List Str), (∀ l ∈ ls, '\n' ∉ l) →
    ∀ (s : Bool), ∀ l ∈ transformLines s ls, '\n' ∉ l := by
  intro ls
  induction ls with
  | nil => intro _ s l hl; simp [transformLines] at hl
  | cons x tl ih =>
    intro hnl s l hl
    have hx : '\n' ∉ x := hnl x (List.mem_cons_self _ _)
    have iht := ih (fun y hy => hnl y (List.mem_cons_of_mem _ hy))
    rw [transformLines_cons] at hl
    by_cases hf : fenceLine x
    · rw [if_pos hf] at hl
      rcases List.mem_cons.mp hl with h | h
      · subst h; exact hx
      · exact iht (!s) l h
    · rw [if_neg hf] at hl
      cases s
      · rw [if_neg (by decide)] at hl
        rcases List.mem_cons.mp hl with h | h
        · subst h; exact procLine_no_nl x hx
        · exact iht false l h
      · rw [if_pos rfl] at hl
        rcases List.mem_cons.mp hl with h | h
        · subst h; exact hx
        · exact iht true l h

theorem transformLines_idem : ∀ (ls : List Str), (∀ l ∈ ls, bqFree l = true) →
    ∀ (s : Bool), transformLines s (transformLines s ls) = transformLines s ls := by
  intro ls
  induction ls with
  | nil => intro _ s; rfl
  | cons x tl ih =>
    intro hb s
    have hbx : bqFree x = true := hb x (List.mem_cons_self _ _)
    have ih2 := ih (fun y hy => hb y (List.mem_cons_of_mem _ hy))
    by_cases hf : fenceLine x
    · rw [transformLines_cons, if_pos hf, transformLines_cons, if_pos hf, ih2 (!s)]
    · have hf2 : fenceLine x = false := by
        revert hf
        cases fenceLine x <;> simp
      cases s
      · have hpf : fenceLine (procLine x) = false := procLine_fence x hbx hf2
        rw [transformLines_cons, if_neg hf, if_neg (by decide)]
        rw [transformLines_cons, if_neg (by rw [hpf]; exact Bool.false_ne_true),
          if_neg (by decide)]
        rw [procLine_idem x hbx, ih2 false]
      · rw [transformLines_cons, if_neg hf, if_pos rfl]
        rw [transformLines_cons, if_neg hf, if_pos rfl, ih2 true]

theorem transformLines_get_odd : ∀ (ls : List Str) (s : Bool) (i : Nat),
    (fenceCount (ls.take i) + (if s then 1 else 0)) % 2 = 1 →
    (transformLines s ls)[i]? = ls[i]? := by
  intro ls
  induction ls with
  | nil => intro s i _; rfl
  | cons x tl ih =>
    intro s i h
    cases i with
    | zero =>
      cases s with
      | false => simp [fenceCount] at h
      | true =>
        rw [transformLines_cons]
        by_cases hf : fenceLine x
        · rw [if_pos hf]
          simp
        · rw [if_neg hf, if_pos rfl]
          simp
    | succ i =>
      have hc : fenceCount ((x :: tl).take (i + 1)) =
          fenceCount (tl.take i) + (if fenceLine x then 1 else 0) := by
        rw [List.take_succ_cons]
        simp [fenceCount, List.countP_cons]
      rw [hc] at h
      rw [transformLines_cons]
      by_cases hf : fenceLine x
      · rw [if_pos hf, List.getElem?_cons_succ, List.getElem?_cons_succ]
        apply ih (!s) i
        rw [if_pos hf] at h
        cases s <;> simp at h ⊢ <;> omega
      · rw [if_neg hf] at h ⊢
        cases s
        · rw [if_neg (by decide), List.getElem?_cons_succ, List.getElem?_cons_succ]
          apply ih false i
          simp at h ⊢
          omega
        · rw [if_pos rfl, List.getElem?_cons_succ, List.getElem?_cons_succ]
          apply ih true i
          simp at h ⊢
          omega

theorem transformLines_get_cb : ∀ (ls : List Str) (s : Bool) (i : Nat) (l : Str),
    ls[i]? = some l → cbStart (l.dropWhile isSpace) = true →
    (transformLines s ls)[i]? = some l := by
  intro ls
  induction ls with
  | nil => intro s i l h _; simp at h
  | cons x tl ih =>
    intro s i l h hcb
    cases i with
    | zero =>
      have hx : x = l := by simpa using h
      subst hx
      rw [transformLines_cons]
      by_cases hf : fenceLine x
      · rw [if_pos hf]
        simp
      · rw [if_neg hf]
        cases s
        · rw [if_neg (by decide), procLine_of_cb x hcb]
          simp
        · rw [if_pos rfl]
          simp
    | succ i =>
      rw [List.getElem?_cons_succ] at h
      rw [transformLines_cons]
      by_cases hf : fenceLine x
      · rw [if_pos hf, List.getElem?_cons_succ]
        exact ih (!s) i l h hcb
      · rw [if_neg hf]
        cases s
        · rw [if_neg (by decide), List.getElem?_cons_succ]
          exact ih false i l h hcb
        · rw [if_pos rfl, List.getElem?_cons_succ]
          exact ih true i l h hcb

theorem split_transform : ∀ (t : Str),
    splitLines (transform_markdown t) = transformLines false (splitLines t) := by
  intro t
  unfold transform_markdown
  apply split_join
  · intro hnil
    have hlen := transformLines_length (splitLines t) false
    rw [hnil] at hlen
    exact splitLines_ne_nil t (List.length_eq_zero.mp hlen.symm)
  · exact fun l hl =>
      transformLines_no_nl (splitLines t) (fun x hx => splitLines_no_nl t x hx) false l hl

/-- C3 counterexample: a checkbox marker behind a blockquote quote marker is not
passed through unchanged — the checkbox test looks only at the whitespace-stripped
line, so `"> - [ ] note"` is converted again, and transforming twice differs from
transforming once on `"> - note"`. -/
theorem transform_blockquote_checkbox_counterexample :
    transform_markdown (str "> - [ ] note") = str "> - [ ] [ ] note" ∧
    transform_markdown (transform_markdown (str "> - note")) ≠
      transform_markdown (str "> - note") := by
  constructor
  · decide
  · decide

/-- C3 (amended): every line whose leading-whitespace-stripped form already starts
with an unchecked or checked checkbox marker is passed through unchanged at its line
position, and `transform_markdown` is idempotent on every text none of whose lines
carries a blockquote `>` in its captured line-leading group; behind a blockquote
prefix a checkbox line is converted again, so the unrestricted claim fails. -/
theorem transform_markdown_checkbox_idem : ∀ (t : Str),
    (∀ (i : Nat) (l : Str), (splitLines t)[i]? = some l →
      cbStart (l.dropWhile isSpace) = true →
      (splitLines (transform_markdown t))[i]? = some l) ∧
    ((∀ l ∈ splitLines t, bqFree l = true) →
      transform_markdown (transform_markdown t) = transform_markdown t) := by
  intro t
  constructor
  · intro i l h hcb
    rw [split_transform]
    exact transformLines_get_cb (splitLines t) false i l h hcb
  · intro hb
    show joinLines (transformLines false (splitLines (transform_markdown t))) =
      transform_markdown t
    rw [split_transform, transformLines_idem (splitLines t) hb false]
    rfl

/-- C3 witness: the amended theorem applied to the concrete text
`"- [x] done\n- a\nplain"`. -/
theorem transform_markdown_checkbox_idem_witness :
    ((splitLines (str "- [x] done\n- a\nplain"))[0]? = some (str "- [x] done") ∧
      cbStart ((str "- [x] done").dropWhile isSpace) = true ∧
      (∀ l ∈ splitLines (str "- [x] done\n- a\nplain"), bqFree l = true)) ∧
    (splitLines (transform_markdown (str "- [x] done\n- a\nplain")))[0]? =
      some (str "- [x] done") ∧
    transform_markdown (transform_markdown (str "- [x] done\n- a\nplain")) =
      transform_markdown (str "- [x] done\n- a\nplain") :=
  ⟨⟨by decide, by decide, by decide⟩,
    (transform_markdown_checkbox_idem (str "- [x] done\n- a\nplain")).1 0
      (str "- [x] done") (by decide) (by decide),
    (transform_markdown_checkbox_idem (str "- [x] done\n- a\nplain")).2 (by decide)⟩

/-- C4: a line before which an odd number of fence-toggle lines has been seen is
emitted unchanged by `transform_markdown`; in particular an unclosed final fence
keeps every later line inside the fenced region and therefore unchanged. -/
theorem transform_markdown_fence_immune : ∀ (t : Str) (i : Nat),
    fenceCount ((splitLines t).take i) % 2 = 1 →
    (splitLines (transform_markdown t))[i]? = (splitLines t)[i]? := by
  intro t i h
  rw [split_transform]
  apply transformLines_get_odd (splitLines t) false i
  simpa using h

/-- C4 witness: the theorem applied to the unclosed fence `"```\n- a"` at line 1. -/
theorem transform_markdown_fence_immune_witness :
    fenceCount ((splitLines (str "```\n- a")).take 1) % 2 = 1 ∧
    (splitLines (transform_markdown (str "```\n- a")))[1]? =
      (splitLines (str "```\n- a"))[1]? :=
  ⟨by decide, transform_markdown_fence_immune (str "```\n- a") 1 (by decide)⟩

/-- C5: the four list-marker kinds of the specification example are all rewritten
to unchecked checkboxes, with the ordered prefix dropped. -/
theorem transform_markdown_marker_example :
    transform_markdown (str "- item one\n* item two\n+ item three\n1. item four") =
      str "- [ ] item one\n- [ ] item two\n- [ ] item three\n- [ ] item four" := by
  decide

/-- C9: `transform_markdown` preserves the number of newline-separated lines of
every input text. -/
theorem transform_markdown_line_count : ∀ (t : Str),
    (splitLines (transform_markdown t)).length = (splitLines t).length := by
  intro t
  rw [split_transform]
  exact transformLines_length (splitLines t) false

theorem findClose_sound : ∀ (s g : Str), findClose s = some g →
    (∃ t, s = g ++ fence3 ++ t) ∧
    (∀ g2, g2 ≠ [] → g2 <:+ g → fence3.isPrefixOf (g2 ++ fence3) = false) := by
  intro s
  induction s with
  | nil => intro g h; simp [findClose] at h
  | cons c cs ih =>
    intro g h
    rw [show findClose (c :: cs) = if fence3.isPrefixOf (c :: cs) then some []
        else (findClose cs).map (fun g0 => c :: g0) from rfl] at h
    cases hp : fence3.isPrefixOf (c :: cs) with
    | true =>
      rw [if_pos hp] at h
      have hg : g = [] := by simpa using h.symm
      subst hg
      constructor
      · obtain ⟨t, ht⟩ := List.isPrefixOf_iff_prefix.mp hp
        exact ⟨t, by simpa using ht.symm⟩
      · intro g2 hne hsuf
        exact absurd (List.suffix_nil.mp hsuf) hne
    | false =>
      rw [if_neg (by rw [hp]; exact Bool.false_ne_true)] at h
      cases hfc : findClose cs with
      | none => rw [hfc] at h; simp at h
      | some g0 =>
        rw [hfc] at h
        have hg : g = c :: g0 := by simpa using h.symm
        subst hg
        obtain ⟨⟨t, ht⟩, hnf⟩ := ih g0 hfc
        constructor
        · exact ⟨t, by rw [ht]; simp⟩
        · intro g2 hne hsuf
          rcases List.suffix_cons_iff.mp hsuf with h1 | h1
          · subst h1
            have hlen : fence3.length ≤ ((c :: g0) ++ fence3).length := by
              simp only [List.length_append, List.length_cons]
              omega
            have hp2 : fence3.isPrefixOf (((c :: g0) ++ fence3) ++ t) = false := by
              rw [show ((c :: g0) ++ fence3) ++ t = c :: cs by rw [ht]; simp]
              exact hp
            calc fence3.isPrefixOf ((c :: g0) ++ fence3)
                = fence3.isPrefixOf (((c :: g0) ++ fence3) ++ []) := by
                  rw [List.append_nil]
              _ = fence3.isPrefixOf (((c :: g0) ++ fence3) ++ t) :=
                  isPrefixOf_ext fence3 _ [] t hlen
              _ = false := hp2
          · exact hnf g2 hne h1

theorem findClose_complete : ∀ (g : Str),
    (∀ g2, g2 ≠ [] → g2 <:+ g → fence3.isPrefixOf (g2 ++ fence3) = false) →
    ∀ (t : Str), findClose (g ++ fence3 ++ t) = some g := by
  intro g
  induction g with
  | nil =>
    intro _ t
    obtain ⟨b, bs, hb⟩ : ∃ a l, fence3 = a :: l := ⟨_, _, rfl⟩
    have hpre : fence3.isPrefixOf (b :: (bs ++ t)) = true := by
      rw [show (b :: (bs ++ t) : Str) = fence3 ++ t by rw [hb]; rfl]
      exact isPrefixOf_append_self fence3 t
    rw [show (([] : Str) ++ fence3 ++ t) = b :: (bs ++ t) by rw [hb]; rfl]
    rw [show findClose (b :: (bs ++ t)) = if fence3.isPrefixOf (b :: (bs ++ t)) then some []
        else (findClose (bs ++ t)).map (fun g0 => b :: g0) from rfl]
    rw [if_pos hpre]
  | cons c g0 ih =>
    intro hnf t
    have hself : fence3.isPrefixOf ((c :: g0) ++ fence3) = false :=
      hnf (c :: g0) (by simp) (List.suffix_refl _)
    have hlen : fence3.length ≤ ((c :: g0) ++ fence3).length := by
      simp only [List.length_append, List.length_cons]
      omega
    have hlong : fence3.isPrefixOf (((c :: g0) ++ fence3) ++ t) = false := by
      rw [isPrefixOf_ext fence3 _ t [] hlen, List.append_nil]
      exact hself
    rw [show ((c :: g0) ++ fence3 ++ t) = c :: (g0 ++ fence3 ++ t) by simp]
    rw [show findClose (c :: (g0 ++ fence3 ++ t)) =
        if fence3.isPrefixOf (c :: (g0 ++ fence3 ++ t)) then some []
        else (findClose (g0 ++ fence3 ++ t)).map (fun g1 => c :: g1) from rfl]
    have hcond : fence3.isPrefixOf (c :: (g0 ++ fence3 ++ t)) = false := by
      rw [show (c :: (g0 ++ fence3 ++ t) : Str) = ((c :: g0) ++ fence3) ++ t by simp]
      exact hlong
    rw [if_neg (by rw [hcond]; exact Bool.false_ne_true)]
    rw [ih (fun g2 hne hsuf => hnf g2 hne (hsuf.trans (List.suffix_cons c g0))) t]
    rfl

theorem metaSearch_sound : ∀ (d g : Str), metaSearch d = some g →
    (∀ g2, g2 ≠ [] → g2 <:+ g → fence3.isPrefixOf (g2 ++ fence3) = false) ∧
    (∀ c cs, g = c :: cs → isSpace c = false) := by
  intro d
  induction d with
  | nil => intro g h; simp [metaSearch] at h
  | cons c cs ih =>
    intro g h
    rw [show metaSearch (c :: cs) = if metaOpen.isPrefixOf (c :: cs) then
        (match tryMeta ((c :: cs).drop metaOpen.length) with
         | some g0 => some g0
         | none => metaSearch cs)
        else metaSearch cs from rfl] at h
    by_cases hp : metaOpen.isPrefixOf (c :: cs) = true
    · rw [if_pos hp] at h
      cases htm : tryMeta ((c :: cs).drop metaOpen.length) with
      | none => rw [htm] at h; exact ih g h
      | some g0 =>
        rw [htm] at h
        have hg : g = g0 := by simpa using h.symm
        subst hg
        unfold tryMeta at htm
        split at htm
        · simp at htm
        · obtain ⟨⟨t, ht⟩, hnf⟩ := findClose_sound _ g htm
          refine ⟨hnf, fun c0 cs0 hg0 => ?_⟩
          subst hg0
          have ht2 : ((c :: cs).drop metaOpen.length).dropWhile isSpace =
              c0 :: (cs0 ++ fence3 ++ t) := by
            rw [ht]
            simp
          exact dropWhile_head_false _ ht2
    · rw [if_neg hp] at h
      exact ih g h

theorem metaSearch_self : ∀ (g tail : Str),
    (∀ g2, g2 ≠ [] → g2 <:+ g → fence3.isPrefixOf (g2 ++ fence3) = false) →
    (∀ c cs, g = c :: cs → isSpace c = false) →
    metaSearch (metaOpen ++ '\n' :: (g ++ fence3 ++ tail)) = some g := by
  intro g tail hnf hhead
  obtain ⟨m0, mr, hm⟩ : ∃ a l, metaOpen = a :: l := ⟨_, _, rfl⟩
  rw [show metaOpen ++ '\n' :: (g ++ fence3 ++ tail) =
      m0 :: (mr ++ '\n' :: (g ++ fence3 ++ tail)) by rw [hm]; rfl]
  rw [show metaSearch (m0 :: (mr ++ '\n' :: (g ++ fence3 ++ tail))) =
      if metaOpen.isPrefixOf (m0 :: (mr ++ '\n' :: (g ++ fence3 ++ tail))) then
        (match tryMeta ((m0 :: (mr ++ '\n' :: (g ++ fence3 ++ tail))).drop metaOpen.length) with
         | some g0 => some g0
         | none => metaSearch (mr ++ '\n' :: (g ++ fence3 ++ tail)))
      else metaSearch (mr ++ '\n' :: (g ++ fence3 ++ tail)) from rfl]
  have hcond : metaOpen.isPrefixOf (m0 :: (mr ++ '\n' :: (g ++ fence3 ++ tail))) = true := by
    rw [hm]
    exact isPrefixOf_append_self (m0 :: mr) _
  rw [if_pos hcond]
  have hdrop : (m0 :: (mr ++ '\n' :: (g ++ fence3 ++ tail))).drop metaOpen.length =
      '\n' :: (g ++ fence3 ++ tail) := by
    rw [hm]
    exact List.drop_left (m0 :: mr) _
  rw [hdrop]
  have htm : tryMeta ('\n' :: (g ++ fence3 ++ tail)) = some g := by
    have h1 : (('\n' :: (g ++ fence3 ++ tail)).takeWhile isSpace).isEmpty = false := by
      rw [List.takeWhile_cons, if_pos (show isSpace '\n' = true from by decide)]
      rfl
    unfold tryMeta
    rw [if_neg (by rw [h1]; exact Bool.false_ne_true)]
    rw [List.dropWhile_cons, if_pos (show isSpace '\n' = true from by decide)]
    have hdw : (g ++ fence3 ++ tail).dropWhile isSpace = g ++ fence3 ++ tail := by
      cases g with
      | nil =>
        obtain ⟨f0, fr, hf⟩ : ∃ a l, fence3 = a :: l := ⟨_, _, rfl⟩
        have hf0 : isSpace f0 = false := by
          have hh : isSpace (fence3.headD ' ') = false := by decide
          rw [hf] at hh
          simpa using hh
        rw [show (([] : Str) ++ fence3 ++ tail) = f0 :: (fr ++ tail) by rw [hf]; rfl]
        rw [List.dropWhile_cons, if_neg (by rw [hf0]; exact Bool.false_ne_true)]
      | cons g1 gr =>
        have hg1 : isSpace g1 = false := hhead g1 gr rfl
        rw [show ((g1 :: gr) ++ fence3 ++ tail) = g1 :: (gr ++ fence3 ++ tail) by simp]
        rw [List.dropWhile_cons, if_neg (by rw [hg1]; exact Bool.false_ne_true)]
    rw [hdw]
    exact findClose_complete g hnf tail
  rw [htm]

/-- C6 counterexample: the matched whitespace run after the opening tag is
normalized to a single newline by the re-wrapping, so when the description carries
a trailing space on the tag line the returned block is not a character-for-character
copy of any contiguous region of the description. -/
theorem extract_meta_block_not_verbatim :
    extract_meta_block (str "```mirror-meta \nsource_path: a\n```") =
      some (str "```mirror-meta\nsource_path: a\n```") ∧
    occursIn (str "```mirror-meta\nsource_path: a\n```")
      (str "```mirror-meta \nsource_path: a\n```") = false := by
  constructor
  · decide
  · decide

/-- C6 (amended): `extract_meta_block` returns the first matched block re-wrapped as
the tag, a single newline, the captured content and a closing fence — verbatim
exactly when the whitespace after the tag was a single newline — and the block
round-trips: re-extracting from any description reassembled by `build_description`
from the returned block yields the identical block. -/
theorem extract_meta_block_reattach : ∀ (d b c : Str), extract_meta_block d = some b →
    extract_meta_block (build_description b c) = some b := by
  intro d b c h
  cases hms : metaSearch d with
  | none =>
    unfold extract_meta_block at h
    rw [hms] at h
    simp at h
  | some g =>
    have hb : b = metaOpen ++ '\n' :: g ++ fence3 := by
      unfold extract_meta_block at h
      rw [hms] at h
      simpa using h.symm
    obtain ⟨hnf, hhead⟩ := metaSearch_sound d g hms
    have hbne : b.isEmpty = false := by
      obtain ⟨m0, mr, hm⟩ : ∃ a l, metaOpen = a :: l := ⟨_, _, rfl⟩
      rw [hb, hm]
      rfl
    have hbd : build_description b c =
        metaOpen ++ '\n' :: (g ++ fence3 ++ ('\n' :: '\n' :: c)) := by
      unfold build_description
      rw [if_neg (by rw [hbne]; exact Bool.false_ne_true)]
      rw [hb]
      simp
    rw [hbd]
    unfold extract_meta_block
    rw [metaSearch_self g ('\n' :: '\n' :: c) hnf hhead]
    simp [hb]

/-- C6 witness: a concrete description round-trips its mirror-meta block through
`build_description`. -/
theorem extract_meta_block_reattach_witness :
    extract_meta_block (str "x\n```mirror-meta\nsource_path: docs/a.md\n```\ny") =
      some (str "```mirror-meta\nsource_path: docs/a.md\n```") ∧
    extract_meta_block (build_description
        (str "```mirror-meta\nsource_path: docs/a.md\n```") (str "- [ ] item")) =
      some (str "```mirror-meta\nsource_path: docs/a.md\n```") :=
  ⟨by decide,
    extract_meta_block_reattach (str "x\n```mirror-meta\nsource_path: docs/a.md\n```\ny")
      (str "```mirror-meta\nsource_path: docs/a.md\n```") (str "- [ ] item") (by decide)⟩

/-- C7 counterexample: a response whose `errors` key holds an empty list is still
treated as fatal by `graphql_request` (the code tests key presence, not
non-emptiness), contradicting the claim that the call fails exactly when the error
list is non-empty. -/
theorem graphql_request_empty_errors_fatal :
    graphql_request (Transport.response (some ([] : List Str)) (some ())) =
      GqlResult.fatalApi [] ∧
    gqlOk (graphql_request (Transport.response (some ([] : List Str)) (some ()))) = false :=
  ⟨rfl, rfl⟩

/-- C7 (amended): `graphql_request` raises its `RuntimeError` failures exactly when
the transport status is non-success or the `errors` key is present (even with an
empty list), carrying the status and body in the transport case and the error
payload in the API case; with no `errors` key it returns the `data` field when
present and hits a `KeyError` otherwise. -/
theorem graphql_request_failure_spec :
    (∀ t : Transport Unit, gqlFatal (graphql_request t) =
      (transportHttpErr t || transportHasErrors t)) ∧
    (∀ (code : Nat) (body : Str),
      graphql_request (Transport.httpError code body : Transport Unit) =
        GqlResult.fatalHttp code body) ∧
    (∀ (errs : List Str) (dat : Option Unit),
      graphql_request (Transport.response (some errs) dat) = GqlResult.fatalApi errs) ∧
    (∀ d : Unit, graphql_request (Transport.response none (some d)) = GqlResult.ok d) ∧
    graphql_request (Transport.response (none : Option (List Str)) (none : Option Unit)) =
      GqlResult.missingData := by
  refine ⟨fun t => ?_, fun code body => rfl, fun errs dat => rfl, fun d => rfl, rfl⟩
  cases t with
  | httpError code body => rfl
  | response errs dat =>
    cases errs with
    | none =>
      cases dat with
      | none => rfl
      | some d => rfl
    | some es => rfl

theorem strLE_cons : ∀ (x y : Char) (xs ys : Str), strLE (x :: xs) (y :: ys) =
    if x < y then true else if y < x then false else strLE xs ys := by
  intro x y xs ys
  rfl

theorem strLE_total : ∀ (a b : Str), strLE a b = true ∨ strLE b a = true := by
  intro a
  induction a with
  | nil => intro b; exact Or.inl rfl
  | cons x xs ih =>
    intro b
    cases b with
    | nil => exact Or.inr rfl
    | cons y ys =>
      rcases lt_trichotomy x y with h | h | h
      · exact Or.inl (by rw [strLE_cons, if_pos h])
      · subst h
        rcases ih ys with h2 | h2
        · refine Or.inl ?_
          rw [strLE_cons, if_neg (lt_irrefl x), if_neg (lt_irrefl x)]
          exact h2
        · refine Or.inr ?_
          rw [strLE_cons, if_neg (lt_irrefl x), if_neg (lt_irrefl x)]
          exact h2
      · exact Or.inr (by rw [strLE_cons, if_pos h])

theorem strLE_trans : ∀ (a b c : Str), strLE a b = true → strLE b c = true →
    strLE a c = true := by
  intro a
  induction a with
  | nil => intro b c _ _; rfl
  | cons x xs ih =>
    intro b c hab hbc
    cases b with
    | nil => simp [strLE] at hab
    | cons y ys =>
      cases c with
      | nil => simp [strLE] at hbc
      | cons z zs =>
        rw [strLE_cons] at hab hbc ⊢
        rcases lt_trichotomy x y with hxy | hxy | hxy
        · rcases lt_trichotomy y z with hyz | hyz | hyz
          · rw [if_pos (lt_trans hxy hyz)]
          · subst hyz
            rw [if_pos hxy]
          · rw [if_neg (asymm hyz), if_pos hyz] at hbc
            exact absurd hbc Bool.false_ne_true
        · subst hxy
          rw [if_neg (lt_irrefl x), if_neg (lt_irrefl x)] at hab
          rcases lt_trichotomy x z with hxz | hxz | hxz
          · rw [if_pos hxz]
          · subst hxz
            rw [if_neg (lt_irrefl x), if_neg (lt_irrefl x)] at hbc ⊢
            exact ih _ _ hab hbc
          · rw [if_neg (asymm hxz), if_pos hxz] at hbc
            exact absurd hbc Bool.false_ne_true
        · rw [if_neg (asymm hxy), if_pos hxy] at hab
          exact absurd hab Bool.false_ne_true

theorem mem_insertSorted : ∀ (x z : Str) (ys : List Str),
    z ∈ insertSorted x ys ↔ z = x ∨ z ∈ ys := by
  intro x z ys
  induction ys with
  | nil => simp [insertSorted]
  | cons y ys ih =>
    rw [show insertSorted x (y :: ys) = if strLE x y then x :: y :: ys
        else y :: insertSorted x ys from rfl]
    by_cases h : strLE x y = true
    · rw [if_pos h]
      simp [List.mem_cons]
    · rw [if_neg h]
      simp only [List.mem_cons, ih]
      tauto

theorem pairwise_insertSorted : ∀ (x : Str) (ys : List Str),
    ys.Pairwise (fun a b => strLE a b = true) →
    (insertSorted x ys).Pairwise (fun a b => strLE a b = true) := by
  intro x ys
  induction ys with
  | nil => intro _; simp [insertSorted]
  | cons y ys ih =>
    intro hp
    rw [List.pairwise_cons] at hp
    obtain ⟨hy, hys⟩ := hp
    rw [show insertSorted x (y :: ys) = if strLE x y then x :: y :: ys
        else y :: insertSorted x ys from rfl]
    by_cases h : strLE x y = true
    · rw [if_pos h, List.pairwise_cons]
      constructor
      · intro z hz
        rcases List.mem_cons.mp hz with h1 | h1
        · subst h1
          exact h
        · exact strLE_trans x y z h (hy z h1)
      · rw [List.pairwise_cons]
        exact ⟨hy, hys⟩
    · rw [if_neg h, List.pairwise_cons]
      constructor
      · intro z hz
        rcases (mem_insertSorted x z ys).mp hz with h1 | h1
        · subst h1
          rcases strLE_total z y with h2 | h2
          · exact absurd h2 h
          · exact h2
        · exact hy z h1
      · exact ih hys

theorem sortStr_pairwise : ∀ (l : List Str),
    (sortStr l).Pairwise (fun a b => strLE a b = true) := by
  intro l
  induction l with
  | nil => simp [sortStr]
  | cons x xs ih => exact pairwise_insertSorted x (sortStr xs) ih

theorem pySliceTo_sublist : ∀ {α : Type} (n : Int) (l : List α), (pySliceTo n l).Sublist l := by
  intro α n l
  unfold pySliceTo
  split
  · exact List.take_sublist _ _
  · exact List.take_sublist _ _

theorem limitDocs_sublist : ∀ (limit : Option Int) (docs : List Str),
    (limitDocs limit docs).Sublist docs := by
  intro limit docs
  cases limit with
  | none => exact List.Sublist.refl _
  | some n =>
    show (if n = 0 then docs else pySliceTo n docs).Sublist docs
    by_cases h : n = 0
    · rw [if_pos h]
    · rw [if_neg h]
      exact pySliceTo_sublist n docs

theorem preparedOf_paths_sublist : ∀ (m : Str → Option (Str × Str)) (f : Str → Str)
    (docs : List Str), (pathsOf (preparedOf m f docs)).Sublist docs := by
  intro m f docs
  induction docs with
  | nil => simp [preparedOf, pathsOf]
  | cons p ps ih =>
    cases hm : m p with
    | none =>
      have heq : preparedOf m f (p :: ps) = preparedOf m f ps := by
        unfold preparedOf
        rw [List.filterMap_cons, hm]
        rfl
      rw [heq]
      exact ih.trans (List.sublist_cons_self p ps)
    | some im =>
      have heq : preparedOf m f (p :: ps) =
          (im.1, build_description im.2 (transform_markdown (f p)), p) ::
            preparedOf m f ps := by
        unfold preparedOf
        rw [List.filterMap_cons, hm]
        rfl
      rw [heq]
      exact List.Sublist.cons₂ p ih

theorem runUpdates_ok_step : ∀ (net : Nat → Transport Unit) (k : Nat) (u : Str × Str × Str)
    (rest : List (Str × Str × Str)) (d : Unit), graphql_request (net k) = .ok d →
    runUpdates net k (u :: rest) =
      ((u.1, u.2.1) :: (runUpdates net (k + 1) rest).1,
        (str "Updated " ++ u.2.2) :: (runUpdates net (k + 1) rest).2.1,
        (runUpdates net (k + 1) rest).2.2) := by
  intro net k u rest d h
  simp only [runUpdates, h]

theorem runUpdates_fail_step : ∀ (net : Nat → Transport Unit) (k : Nat) (u : Str × Str × Str)
    (rest : List (Str × Str × Str)), gqlOk (graphql_request (net k)) = false →
    runUpdates net k (u :: rest) = ([(u.1, u.2.1)], [], false) := by
  intro net k u rest h
  cases hg : graphql_request (net k) with
  | ok d =>
    rw [hg] at h
    simp [gqlOk] at h
  | fatalHttp code body => simp only [runUpdates, hg]
  | fatalApi errs => simp only [runUpdates, hg]
  | missingData => simp only [runUpdates, hg]

theorem gqlOk_exists : ∀ (r : GqlResult Unit), gqlOk r = true → ∃ d, r = .ok d := by
  intro r h
  cases r with
  | ok d => exact ⟨d, rfl⟩
  | fatalHttp code body => simp [gqlOk] at h
  | fatalApi errs => simp [gqlOk] at h
  | missingData => simp [gqlOk] at h

theorem runUpdates_all_ok : ∀ (us : List (Str × Str × Str)) (net : Nat → Transport Unit)
    (k : Nat), (∀ j, j < us.length → gqlOk (graphql_request (net (k + j))) = true) →
    runUpdates net k us = (callsOf us, updatedLines us, true) := by
  intro us
  induction us with
  | nil => intro net k _; rfl
  | cons u rest ih =>
    intro net k h
    have h0 : gqlOk (graphql_request (net k)) = true := by
      have h1 := h 0 (by simp)
      simpa using h1
    obtain ⟨d, hd⟩ := gqlOk_exists _ h0
    rw [runUpdates_ok_step net k u rest d hd]
    rw [ih net (k + 1) (fun j hj => by
      have h2 := h (j + 1) (by simpa using Nat.succ_lt_succ hj)
      rwa [show k + 1 + j = k + (j + 1) by omega])]
    rfl

theorem runUpdates_first_fail : ∀ (us : List (Str × Str × Str)) (net : Nat → Transport Unit)
    (k0 k : Nat), k < us.length → gqlOk (graphql_request (net (k0 + k))) = false →
    (∀ j, j < k → gqlOk (graphql_request (net (k0 + j))) = true) →
    (runUpdates net k0 us).1 = callsOf (us.take (k + 1)) ∧
    (runUpdates net k0 us).2.2 = false := by
  intro us
  induction us with
  | nil =>
    intro net k0 k hk _ _
    simp at hk
  | cons u rest ih =>
    intro net k0 k hk hfail hok
    cases k with
    | zero =>
      have h0 : gqlOk (graphql_request (net k0)) = false := by simpa using hfail
      rw [runUpdates_fail_step net k0 u rest h0]
      exact ⟨rfl, rfl⟩
    | succ k =>
      have h0 : gqlOk (graphql_request (net k0)) = true := by
        have h1 := hok 0 (Nat.succ_pos k)
        simpa using h1
      obtain ⟨d, hd⟩ := gqlOk_exists _ h0
      rw [runUpdates_ok_step net k0 u rest d hd]
      have hk2 : k < rest.length := by
        simp at hk
        omega
      have hrec := ih net (k0 + 1) k hk2
        (by rwa [show k0 + 1 + k = k0 + (k + 1) by omega])
        (fun j hj => by
          have h2 := hok (j + 1) (Nat.succ_lt_succ hj)
          rwa [show k0 + 1 + j = k0 + (j + 1) by omega])
      constructor
      · show (u.1, u.2.1) :: (runUpdates net (k0 + 1) rest).1 =
          callsOf ((u :: rest).take (k + 1 + 1))
        rw [hrec.1]
        rfl
      · exact hrec.2

/-- C1: whenever at least one discovered document path is absent from the mapping,
`sync_docs` exits with code 1, issues no update call, prints the gate report whose
body lists exactly the missing paths, and in particular reports every missing path. -/
theorem sync_docs_missing_gate : ∀ (mapping : Str → Option (Str × Str)) (files : Str → Str)
    (docsFound : List Str) (apply : Bool) (limit : Option Int) (net : Nat → Transport Unit),
    missingOf mapping docsFound ≠ [] →
    sync_docs mapping files docsFound apply limit net =
      ⟨RunOutcome.exited 1, [],
        str "Missing Linear issues for paths:" ::
          (missingOf mapping docsFound).map (fun p => str "- " ++ p) ++
          [str "Aborting due to missing mappings."]⟩ ∧
    ∀ p ∈ missingOf mapping docsFound,
      (str "- " ++ p) ∈ (sync_docs mapping files docsFound apply limit net).printed := by
  intro m f d a l net h
  have heq : sync_docs m f d a l net = gateTrace (missingOf m d) := by
    unfold sync_docs
    rw [if_neg (fun hc => h (List.isEmpty_iff.mp hc))]
  constructor
  · rw [heq]
    rfl
  · intro p hp
    rw [heq]
    show (str "- " ++ p) ∈ str "Missing Linear issues for paths:" ::
      ((missingOf m d).map (fun q => str "- " ++ q) ++
        [str "Aborting due to missing mappings."])
    exact List.mem_cons_of_mem _ (List.mem_append_left _ (List.mem_map_of_mem _ hp))

/-- C1 witness: the gate theorem applied to a run with an empty mapping and one
discovered document. -/
theorem sync_docs_missing_gate_witness :
    missingOf (fun _ => none) [str "docs/a.md"] ≠ [] ∧
    (sync_docs (fun _ => none) (fun _ => []) [str "docs/a.md"] false none
        (fun _ => Transport.response none (some ())) =
      ⟨RunOutcome.exited 1, [],
        str "Missing Linear issues for paths:" ::
          (missingOf (fun _ => none) [str "docs/a.md"]).map (fun p => str "- " ++ p) ++
          [str "Aborting due to missing mappings."]⟩ ∧
      ∀ p ∈ missingOf (fun _ => none) [str "docs/a.md"],
        (str "- " ++ p) ∈ (sync_docs (fun _ => none) (fun _ => []) [str "docs/a.md"] false
          none (fun _ => Transport.response none (some ()))).printed) :=
  ⟨by decide,
    sync_docs_missing_gate (fun _ => none) (fun _ => []) [str "docs/a.md"] false none
      (fun _ => Transport.response none (some ())) (by decide)⟩

/-- C2 counterexample: a preview run whose only document is missing from the mapping
exits with code 1 and reports no prepared-update count, so not every preview run
returns a success signal. -/
theorem preview_gate_failure_counterexample :
    (sync_docs (fun _ => none) (fun _ => []) [str "docs/a.md"] false none
      (fun _ => Transport.response none (some ()))).outcome = RunOutcome.exited 1 := by
  decide

/-- C2 (amended): every preview run issues zero update calls; when additionally
every discovered document is present in the mapping, the run exits with code 0 and
prints the prepared count, at most the first five records as path and issue
identifier, and the dry-run notice. -/
theorem sync_docs_preview_spec : ∀ (mapping : Str → Option (Str × Str)) (files : Str → Str)
    (docsFound : List Str) (limit : Option Int) (net : Nat → Transport Unit),
    (sync_docs mapping files docsFound false limit net).updateCalls = [] ∧
    (missingOf mapping docsFound = [] →
      sync_docs mapping files docsFound false limit net =
        ⟨RunOutcome.exited 0, [],
          preparedLine (updatesOf mapping files docsFound limit).length ::
            ((updatesOf mapping files docsFound limit).take 5).map previewLine ++
            [str "Dry run only. Use --apply to update issues."]⟩) := by
  intro m f d l net
  constructor
  · unfold sync_docs
    by_cases h : (missingOf m d).isEmpty = true
    · rw [if_pos h, if_neg (by decide)]
      rfl
    · rw [if_neg h]
      rfl
  · intro h
    unfold sync_docs
    rw [if_pos (List.isEmpty_iff.mpr h), if_neg (by decide)]
    rfl

/-- C2 witness: the amended preview theorem applied to a fully mapped single
document. -/
theorem sync_docs_preview_spec_witness :
    missingOf (fun p => if p = str "docs/a.md" then some (str "issue-1", ([] : Str))
      else none) [str "docs/a.md"] = [] ∧
    sync_docs (fun p => if p = str "docs/a.md" then some (str "issue-1", ([] : Str))
        else none) (fun _ => str "- x") [str "docs/a.md"] false none
        (fun _ => Transport.response none (some ())) =
      ⟨RunOutcome.exited 0, [],
        preparedLine (updatesOf (fun p => if p = str "docs/a.md" then
            some (str "issue-1", ([] : Str)) else none) (fun _ => str "- x")
            [str "docs/a.md"] none).length ::
          ((updatesOf (fun p => if p = str "docs/a.md" then
            some (str "issue-1", ([] : Str)) else none) (fun _ => str "- x")
            [str "docs/a.md"] none).take 5).map previewLine ++
          [str "Dry run only. Use --apply to update issues."]⟩ :=
  ⟨by decide,
    (sync_docs_preview_spec (fun p => if p = str "docs/a.md" then
        some (str "issue-1", ([] : Str)) else none) (fun _ => str "- x")
        [str "docs/a.md"] none (fun _ => Transport.response none (some ()))).2 (by decide)⟩

/-- C10: a limit of 0 is falsy in the truncation step, so the run is identical to a
run with no limit at all — the cap takes effect only for a non-zero limit. -/
theorem sync_docs_limit_zero : ∀ (mapping : Str → Option (Str × Str)) (files : Str → Str)
    (docsFound : List Str) (apply : Bool) (net : Nat → Transport Unit),
    sync_docs mapping files docsFound apply (some 0) net =
      sync_docs mapping files docsFound apply none net := by
  intro m f d a net
  have h : updatesOf m f d (some 0) = updatesOf m f d none := by
    unfold updatesOf
    have h2 : limitDocs (some 0) (sortStr d) = limitDocs none (sortStr d) := by
      show (if (0 : Int) = 0 then sortStr d else pySliceTo 0 (sortStr d)) = sortStr d
      rw [if_pos rfl]
    rw [h2]
  unfold sync_docs
  rw [h]

/-- C8: in an apply run that passes the missing-path gate, the prepared records are
in lexicographically sorted path order; when every write call succeeds the run
issues exactly one call per prepared record, in that order, prints one completion
line per record and exits 0; and when call `k` is the first to fail, the run raises,
the calls issued are exactly the records up to and including the failing one, and
the earlier completed calls are never compensated or retried (no rollback). -/
theorem sync_docs_apply_spec : ∀ (mapping : Str → Option (Str × Str)) (files : Str → Str)
    (docsFound : List Str) (limit : Option Int) (net : Nat → Transport Unit),
    missingOf mapping docsFound = [] →
    (pathsOf (updatesOf mapping files docsFound limit)).Pairwise
      (fun a b => strLE a b = true) ∧
    ((∀ j, j < (updatesOf mapping files docsFound limit).length →
        gqlOk (graphql_request (net j)) = true) →
      sync_docs mapping files docsFound true limit net =
        ⟨RunOutcome.exited 0, callsOf (updatesOf mapping files docsFound limit),
          preparedLine (updatesOf mapping files docsFound limit).length ::
            updatedLines (updatesOf mapping files docsFound limit)⟩) ∧
    (∀ k, k < (updatesOf mapping files docsFound limit).length →
      gqlOk (graphql_request (net k)) = false →
      (∀ j, j < k → gqlOk (graphql_request (net j)) = true) →
      (sync_docs mapping files docsFound true limit net).outcome = RunOutcome.raised ∧
      (sync_docs mapping files docsFound true limit net).updateCalls =
        callsOf ((updatesOf mapping files docsFound limit).take (k + 1))) := by
  intro m f d l net hmiss
  have hsync : sync_docs m f d true l net = applyTrace (updatesOf m f d l) net := by
    unfold sync_docs
    rw [if_pos (List.isEmpty_iff.mpr hmiss), if_pos rfl]
  refine ⟨?_, ?_, ?_⟩
  · have h1 : (pathsOf (updatesOf m f d l)).Sublist (limitDocs l (sortStr d)) :=
      preparedOf_paths_sublist m f _
    have h2 : (limitDocs l (sortStr d)).Sublist (sortStr d) := limitDocs_sublist l _
    exact (sortStr_pairwise d).sublist (h1.trans h2)
  · intro hok
    rw [hsync]
    unfold applyTrace
    rw [runUpdates_all_ok (updatesOf m f d l) net 0 (fun j hj => by simpa using hok j hj)]
    rfl
  · intro k hk hf hok
    rw [hsync]
    have hrec := runUpdates_first_fail (updatesOf m f d l) net 0 k hk
      (by simpa using hf) (fun j hj => by simpa using hok j hj)
    constructor
    · show (applyTrace (updatesOf m f d l) net).outcome = RunOutcome.raised
      unfold applyTrace
      rw [hrec.2]
      rfl
    · show (applyTrace (updatesOf m f d l) net).updateCalls =
        callsOf ((updatesOf m f d l).take (k + 1))
      unfold applyTrace
      exact hrec.1

/-- C8 witness: the apply theorem applied to a fully mapped single document with a
succeeding transport. -/
theorem sync_docs_apply_spec_witness :
    missingOf (fun p => if p = str "docs/a.md" then some (str "issue-1", ([] : Str))
      else none) [str "docs/a.md"] = [] ∧
    ((pathsOf (updatesOf (fun p => if p = str "docs/a.md" then
        some (str "issue-1", ([] : Str)) else none) (fun _ => str "- x")
        [str "docs/a.md"] none)).Pairwise (fun a b => strLE a b = true) ∧
      ((∀ j, j < (updatesOf (fun p => if p = str "docs/a.md" then
          some (str "issue-1", ([] : Str)) else none) (fun _ => str "- x")
          [str "docs/a.md"] none).length →
        gqlOk (graphql_request ((fun _ => Transport.response none (some ())) j)) = true) →
        sync_docs (fun p => if p = str "docs/a.md" then some (str "issue-1", ([] : Str))
            else none) (fun _ => str "- x") [str "docs/a.md"] true none
            (fun _ => Transport.response none (some ())) =
          ⟨RunOutcome.exited 0, callsOf (updatesOf (fun p => if p = str "docs/a.md" then
              some (str "issue-1", ([] : Str)) else none) (fun _ => str "- x")
              [str "docs/a.md"] none),
            preparedLine (updatesOf (fun p => if p = str "docs/a.md" then
              some (str "issue-1", ([] : Str)) else none) (fun _ => str "- x")
              [str "docs/a.md"] none).length ::
              updatedLines (updatesOf (fun p => if p = str "docs/a.md" then
                some (str "issue-1", ([] : Str)) else none) (fun _ => str "- x")
                [str "docs/a.md"] none)⟩) ∧
      (∀ k, k < (updatesOf (fun p => if p = str "docs/a.md" then
          some (str "issue-1", ([] : Str)) else none) (fun _ => str "- x")
          [str "docs/a.md"] none).length →
        gqlOk (graphql_request ((fun _ => Transport.response none (some ())) k)) = false →
        (∀ j, j < k →
          gqlOk (graphql_request ((fun _ => Transport.response none (some ())) j)) = true) →
        (sync_docs (fun p => if p = str "docs/a.md" then some (str "issue-1", ([] : Str))
            else none) (fun _ => str "- x") [str "docs/a.md"] true none
            (fun _ => Transport.response none (some ()))).outcome = RunOutcome.raised ∧
        (sync_docs (fun p => if p = str "docs/a.md" then some (str "issue-1", ([] : Str))
            else none) (fun _ => str "- x") [str "docs/a.md"] true none
            (fun _ => Transport.response none (some ()))).updateCalls =
          callsOf ((updatesOf (fun p => if p = str "docs/a.md" then
            some (str "issue-1", ([] : Str)) else none) (fun _ => str "- x")
            [str "docs/a.md"] none).take (k + 1)))) :=
  ⟨by decide,
    sync_docs_apply_spec (fun p => if p = str "docs/a.md" then
        some (str "issue-1", ([] : Str)) else none) (fun _ => str "- x")
      [str "docs/a.md"] none (fun _ => Transport.response none (some ())) (by decide)⟩
